import Mathlib

/-!
Verification of the sarc archive codec: a shallow embedding of the reader
(parser.rs), the writer (writer.rs) and the hash (lib.rs), with theorems
settling the specification claims.  Bytes are lists of naturals, machine
integers are naturals reduced modulo the relevant power of two at the points
where the source casts or wraps, and rust panics are a distinguished outcome
of the read path.
-/

set_option maxRecDepth 8000

namespace Sarc

/-- Byte order of a sarc file, from the enum Endian in lib.rs. -/
inductive Endian where
  | big
  | little
deriving DecidableEq

/-- A file contained in a sarc archive, from the struct SarcEntry in lib.rs:
an optional name (a list of unicode code points) and the data bytes. -/
structure SarcEntry where
  name : Option (List Nat)
  data : List Nat
deriving DecidableEq

/-- In-memory representation of a sarc archive, from the struct SarcFile in
lib.rs. -/
structure SarcFile where
  byte_order : Endian
  files : List SarcEntry
deriving DecidableEq

/-- The hash key constant KEY = 0x65 of lib.rs. -/
def KEY : Nat := 0x65

/-- Hash for sfat strings, from sfat_hash in lib.rs: fold over the code
points with a wrapping 32-bit multiply by KEY followed by a 32-bit add. -/
def sfat_hash (s : List Nat) : Nat :=
  s.foldl (fun h c => (h * KEY % 2 ^ 32 + c) % 2 ^ 32) 0

/-- The hash exactly as the specification words it: accumulator times 101
plus the code point, modulo 2 to the 32. -/
def hashSpec (s : List Nat) : Nat :=
  s.foldl (fun h c => (h * 101 + c) % 2 ^ 32) 0

/-! ## The reader, from parser.rs -/

/-- Result of a nom style step: success with the remaining input and a
value, a parse error, or a rust panic. -/
inductive PRes (α : Type) where
  | ok (rest : List Nat) (val : α)
  | err
  | panicked
deriving DecidableEq

/-- Conversion of the 2-byte order mark value, from the impl of From u16 for
Endian in parser.rs; the wildcard arm of the source panics, modelled here as
none. -/
def endianOfU16 (v : Nat) : Option Endian :=
  if v = 0xFEFF then some .big
  else if v = 0xFFFE then some .little
  else none

/-- Read an unsigned 16-bit value in the given byte order, from take_u16. -/
def readU16 (e : Endian) : List Nat → Option (Nat × List Nat)
  | b0 :: b1 :: rest =>
      match e with
      | .little => some (b0 + 256 * b1, rest)
      | .big => some (256 * b0 + b1, rest)
  | _ => none

/-- Read an unsigned 32-bit value in the given byte order, from take_u32. -/
def readU32 (e : Endian) : List Nat → Option (Nat × List Nat)
  | b0 :: b1 :: b2 :: b3 :: rest =>
      match e with
      | .little => some (b0 + 256 * b1 + 65536 * b2 + 16777216 * b3, rest)
      | .big => some (16777216 * b0 + 65536 * b1 + 256 * b2 + b3, rest)
  | _ => none

/-- A parsed file table node, from the struct SfatNode in parser.rs. -/
structure SfatNode where
  name_offset : Option Nat
  file_start : Nat
  file_end : Nat
deriving DecidableEq

/-- Parse one 16-byte file table record, from the closure inside parse_sfat:
a hash (ignored), the attributes word carrying the has-name flag 0x01000000
and, truncated to 16 bits, the name table word offset, then the data range. -/
def parseNode (E : Endian) (data : List Nat) : Option (List Nat × SfatNode) := do
  let (_, d1) ← readU32 E data
  let (attrs, d2) ← readU32 E d1
  let (fstart, d3) ← readU32 E d2
  let (fend, d4) ← readU32 E d3
  let nameOff := if attrs &&& 0x01000000 ≠ 0 then some (attrs % 2 ^ 16) else none
  some (d4, ⟨nameOff, fstart, fend⟩)

/-- Parse exactly n file table records, from the count combinator
application in parse_sfat. -/
def parseNodes (E : Endian) : Nat → List Nat → Option (List Nat × List SfatNode)
  | 0, data => some (data, [])
  | n + 1, data => do
      let (d1, node) ← parseNode E data
      let (d2, nodes) ← parseNodes E n d1
      some (d2, node :: nodes)

/-- Parse the SFAT section, from parse_sfat in parser.rs: the magic, the
header size (ignored), the node count, the hash key, then the records. -/
def parse_sfat (E : Endian) (data : List Nat) : Option (List Nat × (Nat × List SfatNode)) :=
  match data with
  | 0x53 :: 0x46 :: 0x41 :: 0x54 :: rest => do
      let (_, d1) ← readU16 E rest
      let (node_count, d2) ← readU16 E d1
      let (hash_key, d3) ← readU32 E d2
      let (d4, files) ← parseNodes E node_count d3
      some (d4, (hash_key, files))
  | _ => none

/-- Bytes strictly before the first zero byte, or none when no zero byte
occurs, from the scanning loop of get_string in parser.rs. -/
def takeUntilZero : List Nat → Option (List Nat)
  | [] => none
  | 0 :: _ => some []
  | b :: rest => (takeUntilZero rest).map (fun l => b :: l)

/-- Decode one UTF-8 scalar with the validation performed by from_utf8 in
the rust standard library: strict continuation ranges, rejecting overlong
forms, surrogates and values above 0x10FFFF.  Returns the code point and
the remaining bytes, or none on invalid input. -/
def utf8DecodeOne : List Nat → Option (Nat × List Nat)
  | [] => none
  | b :: rest =>
    if b < 0x80 then some (b, rest)
    else if b < 0xC2 then none
    else if b < 0xE0 then
      match rest with
      | b1 :: r =>
          if 0x80 ≤ b1 ∧ b1 < 0xC0 then
            some ((b - 0xC0) * 64 + (b1 - 0x80), r)
          else none
      | [] => none
    else if b < 0xF0 then
      match rest with
      | b1 :: b2 :: r =>
          if (if b = 0xE0 then 0xA0 ≤ b1 ∧ b1 < 0xC0
              else if b = 0xED then 0x80 ≤ b1 ∧ b1 < 0xA0
              else 0x80 ≤ b1 ∧ b1 < 0xC0) ∧ 0x80 ≤ b2 ∧ b2 < 0xC0 then
            some ((b - 0xE0) * 4096 + (b1 - 0x80) * 64 + (b2 - 0x80), r)
          else none
      | _ => none
    else if b < 0xF5 then
      match rest with
      | b1 :: b2 :: b3 :: r =>
          if (if b = 0xF0 then 0x90 ≤ b1 ∧ b1 < 0xC0
              else if b = 0xF4 then 0x80 ≤ b1 ∧ b1 < 0x90
              else 0x80 ≤ b1 ∧ b1 < 0xC0) ∧ 0x80 ≤ b2 ∧ b2 < 0xC0
              ∧ 0x80 ≤ b3 ∧ b3 < 0xC0 then
            some ((b - 0xF0) * 262144 + (b1 - 0x80) * 4096 + (b2 - 0x80) * 64 + (b3 - 0x80), r)
          else none
      | _ => none
    else none

/-- Iterated UTF-8 decoding; the fuel is a recursion bound, always called
with at least the length of the input so the zero-fuel arm is unreachable
(each scalar consumes at least one byte). -/
def utf8DecodeLoop : Nat → List Nat → Option (List Nat)
  | _, [] => some []
  | 0, _ :: _ => none
  | fuel + 1, b :: rest =>
      match utf8DecodeOne (b :: rest) with
      | none => none
      | some (c, r) => (utf8DecodeLoop fuel r).map (fun l => c :: l)

/-- Decode a whole byte string as UTF-8, as from_utf8 validates it. -/
def utf8Decode (l : List Nat) : Option (List Nat) := utf8DecodeLoop l.length l

/-- Read a zero-terminated UTF-8 string at the given byte offset, from
get_string in parser.rs; none when no terminator is found or the bytes do
not decode. -/
def get_string (slice : List Nat) (offset : Nat) : Option (List Nat) :=
  (takeUntilZero (slice.drop offset)).bind utf8Decode

/-- Parse the 20-byte archive header, from SarcHeader::parse and
SarcHeader::parse_endian: the magic, a little-endian u16 (ignored), the byte
order mark sampled big-endian, then file_size, data_offset and a reserved
u32 in the detected order.  An unrecognized byte order mark panics in the
source. -/
def parseHeader (data : List Nat) : PRes (Endian × Nat × Nat) :=
  match data with
  | 0x53 :: 0x41 :: 0x52 :: 0x43 :: _h0 :: _h1 :: b0 :: b1 :: rest =>
      match endianOfU16 (256 * b0 + b1) with
      | none => .panicked
      | some E =>
          match readU32 E rest with
          | none => .err
          | some (file_size, d1) =>
              match readU32 E d1 with
              | none => .err
              | some (data_offset, d2) =>
                  match readU32 E d2 with
                  | none => .err
                  | some (_, d3) => .ok d3 (E, file_size, data_offset)
  | _ => .err

/-- The entry assembled from one parsed node, from the map closure inside
SarcFile::parse: the name read from the name table (degrading to none), and
the data slice of the data region. -/
def assembleEntry (string_data file_data : List Nat) (node : SfatNode) : SarcEntry :=
  { name := node.name_offset.bind (fun off => get_string string_data (off * 4))
    data := (file_data.drop node.file_start).take (node.file_end - node.file_start) }

/-- Parse an uncompressed archive, from SarcFile::parse in parser.rs.  The
three slice expressions of the source that can index out of range — the data
region at data_offset, the name table region 8 bytes into the remainder, and
each file range — are modelled as the panicked outcome. -/
def SarcFile.parse (data : List Nat) : PRes SarcFile :=
  match parseHeader data with
  | .panicked => .panicked
  | .err => .err
  | .ok after_header (E, _file_size, data_offset) =>
      if data.length < data_offset then .panicked
      else
        let file_data := data.drop data_offset
        match parse_sfat E after_header with
        | none => .err
        | some (d1, (_hash_key, nodes)) =>
            if d1.length < 8 then .panicked
            else
              let string_data := d1.drop 8
              if nodes.all (fun nd =>
                  decide (nd.file_start ≤ nd.file_end ∧ nd.file_end ≤ file_data.length)) then
                .ok d1 { byte_order := E
                         files := nodes.map (assembleEntry string_data file_data) }
              else .panicked

/-- The error type of the read path, from the enum Error in parser.rs with
the message payloads dropped. -/
inductive SError where
  | ioError
  | parseError
deriving DecidableEq

/-- Outcome of SarcFile::read, with a rust panic as a distinguished third
outcome next to the Ok and Err returns. -/
inductive ReadResult where
  | ok (f : SarcFile)
  | error (e : SError)
  | panicked
deriving DecidableEq

/-- The Yaz0 compression magic bytes. -/
def yaz0Magic : List Nat := [0x59, 0x61, 0x7A, 0x30]

/-- The zstd compression magic bytes. -/
def zstdMagic : List Nat := [0x28, 0xB5, 0x2F, 0xFD]

/-- Read a sarc archive from a byte buffer, from SarcFile::read in
parser.rs, with the optional compression features disabled so that either
compression magic takes the branch returning a parse error. -/
def SarcFile.read (data : List Nat) : ReadResult :=
  if data.length < 4 then .error .parseError
  else if data.take 4 = yaz0Magic then .error .parseError
  else if data.take 4 = zstdMagic then .error .parseError
  else
    match SarcFile.parse data with
    | .ok _ f => .ok f
    | .err => .error .parseError
    | .panicked => .panicked

/-! ## The writer, from writer.rs -/

/-- Stable insertion of an element into a list ordered by key; together with
insSort this models the stable sort_by_key of the rust standard library. -/
def ordInsert (key : α → Nat) (a : α) : List α → List α
  | [] => [a]
  | b :: l => if key a ≤ key b then a :: b :: l else b :: ordInsert key a l

/-- Stable insertion sort by key, modelling the stable sort_by_key. -/
def insSort (key : α → Nat) : List α → List α
  | [] => []
  | a :: l => ordInsert key a (insSort key l)

/-- Write a 16-bit value in the given byte order. -/
def writeU16 (e : Endian) (n : Nat) : List Nat :=
  match e with
  | .little => [n % 256, n / 256 % 256]
  | .big => [n / 256 % 256, n % 256]

/-- Write a 32-bit value in the given byte order. -/
def writeU32 (e : Endian) (n : Nat) : List Nat :=
  match e with
  | .little => [n % 256, n / 256 % 256, n / 65536 % 256, n / 16777216 % 256]
  | .big => [n / 16777216 % 256, n / 65536 % 256, n / 256 % 256, n % 256]

/-- The table key of an entry: the hash of its name, 0 when absent, from
name.as_deref().map(sfat_hash).unwrap_or_default() in writer.rs. -/
def hashOf (f : SarcEntry) : Nat := (f.name.map sfat_hash).getD 0

/-- Serialized form of one name table string, from the struct SarcString
with its cstr and align_after(4) attributes: the UTF-8 bytes, a zero
terminator, then zero padding to the next 4-byte boundary. -/
def utf8EncodeChar (c : Nat) : List Nat :=
  if c < 0x80 then [c]
  else if c < 0x800 then [0xC0 + c / 64, 0x80 + c % 64]
  else if c < 0x10000 then [0xE0 + c / 4096, 0x80 + c / 64 % 64, 0x80 + c % 64]
  else [0xF0 + c / 262144, 0x80 + c / 4096 % 64, 0x80 + c / 64 % 64, 0x80 + c % 64]

/-- UTF-8 encoding of a string given as its list of unicode code points. -/
def utf8Encode (s : List Nat) : List Nat := (s.map utf8EncodeChar).flatten

/-- One serialized name table string: bytes, terminator, 4-byte padding. -/
def sarcStringBytes (name : List Nat) : List Nat :=
  let raw := utf8Encode name ++ [0]
  raw ++ List.replicate ((4 - raw.length % 4) % 4) 0

/-- Round up to the next multiple of 0x2000, from the expression
(x + 0x1FFF) with the low 13 bits cleared in writer.rs. -/
def align2000 (x : Nat) : Nat := (x + 0x1FFF) / 0x2000 * 0x2000

/-- Accumulating loop of generate_string_section: each name is appended to
the section and its byte offset recorded under its hash.  Bindings are
consed to the front and lookup takes the first match, so a later insertion
shadows an earlier one exactly like an insertion into the rust HashMap. -/
def strBuildAux : List (Nat × Nat) → List Nat → List (List Nat) → List (Nat × Nat) × List Nat
  | m, sec, [] => (m, sec)
  | m, sec, nm :: rest =>
      strBuildAux ((sfat_hash nm, sec.length) :: m) (sec ++ sarcStringBytes nm) rest

/-- Name table generation, from SarcFile::generate_string_section: the
present names sorted by hash, each serialized in turn, with the offsets
keyed by name hash. -/
def generate_string_section (files : List SarcEntry) : List (Nat × Nat) × List Nat :=
  strBuildAux [] [] (insSort sfat_hash (files.filterMap (fun f => f.name)))

/-- Accumulating loop of generate_data_section: each payload is placed at
the next 0x2000-aligned offset, and its range — start and section length
after the write, both cast to u32 — is recorded under the entry hash. -/
def dataBuildAux : List (Nat × (Nat × Nat)) → List Nat → List (Nat × List Nat) →
    List (Nat × (Nat × Nat)) × List Nat
  | m, data, [] => (m, data)
  | m, data, (h, fd) :: rest =>
      let start := align2000 data.length
      let d2 := data ++ List.replicate (start - data.length) 0 ++ fd
      dataBuildAux ((h, (start % 2 ^ 32, d2.length % 2 ^ 32)) :: m) d2 rest

/-- Data section generation, from SarcFile::generate_data_section: the
(hash, payload) pairs sorted by hash, laid out with alignment padding. -/
def generate_data_section (files : List SarcEntry) : List (Nat × (Nat × Nat)) × List Nat :=
  dataBuildAux [] [] (insSort (fun p => p.1) (files.map (fun f => (hashOf f, f.data))))

/-- A file table record prepared by the writer, from the struct SfatEntry in
writer.rs. -/
structure SfatRec where
  name : Option (List Nat)
  name_table_offset : Option Nat
  file_range : Nat × Nat
deriving DecidableEq

/-- File table construction, from SarcFile::get_sfat_entries: one record per
entry, the name table offset looked up by name hash, the data range looked
up by entry hash (the source indexes the HashMap and would panic on a
missing key, which never occurs since every entry hash was inserted; the
getD default is therefore never taken), sorted stably by name hash. -/
def get_sfat_entries (files : List SarcEntry) (string_offsets : List (Nat × Nat))
    (data_offsets : List (Nat × (Nat × Nat))) : List SfatRec :=
  insSort (fun r => (r.name.map sfat_hash).getD 0)
    (files.map (fun f =>
      { name := f.name
        name_table_offset := f.name.bind (fun nm => List.lookup (sfat_hash nm) string_offsets)
        file_range := (List.lookup (hashOf f) data_offsets).getD (0, 0) }))

/-- The 16 bytes of one file table record, from the BinWrite derive on
SfatEntry: the name hash (0 when unnamed), the attribute word packing the
has-name flag 0x01000000 with the word offset, and the data range. -/
def sfatRecBytes (e : Endian) (r : SfatRec) : List Nat :=
  writeU32 e ((r.name.map sfat_hash).getD 0) ++
  writeU32 e ((r.name_table_offset.map (fun o => (o / 4) ||| 0x01000000)).getD 0) ++
  writeU32 e r.file_range.1 ++ writeU32 e r.file_range.2

/-- The name table offsets of an archive being written. -/
def strOffsets (A : SarcFile) : List (Nat × Nat) := (generate_string_section A.files).1

/-- The name table bytes of an archive being written. -/
def strSection (A : SarcFile) : List Nat := (generate_string_section A.files).2

/-- The data range table of an archive being written. -/
def dataOffsets (A : SarcFile) : List (Nat × (Nat × Nat)) := (generate_data_section A.files).1

/-- The data section bytes of an archive being written. -/
def dataSection (A : SarcFile) : List Nat := (generate_data_section A.files).2

/-- The sorted file table of an archive being written. -/
def writtenTable (A : SarcFile) : List SfatRec :=
  get_sfat_entries A.files (strOffsets A) (dataOffsets A)

/-- Byte position where the name table ends, from data_padding_offset in
SarcFile::write: header (0x14), table sub-header (0xC), records, name table
sub-header (8) and name bytes. -/
def dataPaddingOffset (A : SarcFile) : Nat :=
  0x14 + 0xC + A.files.length * 0x10 + 8 + (strSection A).length

/-- The data_offset value computed by SarcFile::write before the u32 cast. -/
def writeDataOffset (A : SarcFile) : Nat := align2000 (dataPaddingOffset A)

/-- The 16-bit entry count field written by sfat_header, from
entries.len() as u16 in writer.rs. -/
def writeCountField (A : SarcFile) : Nat := A.files.length % 2 ^ 16

/-- The alignment padding bytes between name table and data section. -/
def padBytes (A : SarcFile) : List Nat :=
  List.replicate (writeDataOffset A - dataPaddingOffset A) 0

/-- The 20 header bytes written by SarcHeader with its BinWrite derive: the
magic, the header size 0x14, the byte order mark 0xFEFF (both in the chosen
byte order), file_size, data_offset (cast to u32), the version 0x0100 and
two bytes of padding. -/
def headerBytes (A : SarcFile) : List Nat :=
  [0x53, 0x41, 0x52, 0x43] ++ writeU16 A.byte_order 0x14 ++ writeU16 A.byte_order 0xFEFF ++
  writeU32 A.byte_order ((writeDataOffset A + (dataSection A).length) % 2 ^ 32) ++
  writeU32 A.byte_order (writeDataOffset A % 2 ^ 32) ++
  writeU16 A.byte_order 0x0100 ++ [0, 0]

/-- The file table bytes written by sfat_header and the record serializer:
magic, header size 0xC, the 16-bit entry count, hash key 0x65, records. -/
def sfatBytes (A : SarcFile) : List Nat :=
  [0x53, 0x46, 0x41, 0x54] ++ writeU16 A.byte_order 0xC ++
  writeU16 A.byte_order (writeCountField A) ++ writeU32 A.byte_order 0x65 ++
  ((writtenTable A).map (sfatRecBytes A.byte_order)).flatten

/-- The name table sub-header written by SarcFile::write. -/
def sfntBytes (A : SarcFile) : List Nat :=
  [0x53, 0x46, 0x4E, 0x54] ++ writeU16 A.byte_order 8 ++ writeU16 A.byte_order 0

/-- Serialize an archive without compression, from SarcFile::write: header,
file table, name table sub-header and bytes, alignment padding, then the
data section. -/
def SarcFile.write (A : SarcFile) : List Nat :=
  headerBytes A ++ sfatBytes A ++ sfntBytes A ++ strSection A ++ padBytes A ++ dataSection A

/-- An archive with two unnamed entries (both table key 0) holding different
payloads. -/
def collArchive : SarcFile := ⟨.little, [⟨none, []⟩, ⟨none, [1]⟩]⟩

/-- The sort key of a written file table record: the hash field that
get_sfat_entries sorts by (0 for an absent name). -/
def recKey (r : SfatRec) : Nat := (r.name.map sfat_hash).getD 0

/-- A unicode scalar value, as carried by a rust char: below 0x110000 and
not a surrogate. -/
def ValidScalar (c : Nat) : Prop := c < 0x110000 ∧ ¬ (0xD800 ≤ c ∧ c < 0xE000)

/-- The node the parser recovers from the serialized form of a record
(provided the packed attribute word fits in 32 bits). -/
def nodeOfRec (r : SfatRec) : SfatNode :=
  { name_offset := r.name_table_offset.map (fun o => ((o / 4) ||| 0x01000000) % 2 ^ 16)
    file_start := r.file_range.1
    file_end := r.file_range.2 }

/-- The structural part of SarcFile::parse — everything the success of a
read depends on, with the name lookups left out: the header, the node
records, the bounds checks, and the two slices handed to the entry
assembly. -/
def structuralParse (data : List Nat) : Option (Endian × List SfatNode × List Nat × List Nat) :=
  match parseHeader data with
  | .panicked => none
  | .err => none
  | .ok after_header (E, _, data_offset) =>
      if data.length < data_offset then none
      else
        match parse_sfat E after_header with
        | none => none
        | some (d1, (_, nodes)) =>
            if d1.length < 8 then none
            else if nodes.all (fun nd =>
                decide (nd.file_start ≤ nd.file_end
                  ∧ nd.file_end ≤ (data.drop data_offset).length)) then
              some (E, nodes, d1.drop 8, data.drop data_offset)
            else none

/-- The file table records in original entry order, before the sort at the
end of get_sfat_entries. -/
def sfatRecsUnsorted (A : SarcFile) : List SfatRec :=
  A.files.map (fun f =>
    { name := f.name
      name_table_offset := f.name.bind (fun nm => List.lookup (sfat_hash nm) (strOffsets A))
      file_range := (List.lookup (hashOf f) (dataOffsets A)).getD (0, 0) })

/-! ## Theorems: the hash (claim C6) -/

theorem sfat_hash_fold_eq (s : List Nat) (a : Nat) :
    s.foldl (fun h c => (h * KEY % 2 ^ 32 + c) % 2 ^ 32) a
      = s.foldl (fun h c => (h * 101 + c) % 2 ^ 32) a := by
  induction s generalizing a with
  | nil => rfl
  | cons c t ih =>
      have h1 : (a * KEY % 2 ^ 32 + c) % 2 ^ 32 = (a * 101 + c) % 2 ^ 32 := by
        unfold KEY; omega
      rw [List.foldl_cons, List.foldl_cons, h1, ih]

theorem sfat_hash_fold_lt (s : List Nat) (a : Nat) (ha : a < 2 ^ 32) :
    s.foldl (fun h c => (h * KEY % 2 ^ 32 + c) % 2 ^ 32) a < 2 ^ 32 := by
  induction s generalizing a with
  | nil => exact ha
  | cons c t ih =>
      rw [List.foldl_cons]
      exact ih _ (Nat.mod_lt _ (by decide))

theorem sfat_hash_lt (s : List Nat) : sfat_hash s < 2 ^ 32 :=
  sfat_hash_fold_lt s 0 (by decide)

/-- C6: the sarc hash equals the specified fold (accumulator times 101 plus
the code point, with 32-bit wraparound) on every string; equal strings hash
equal; the empty string hashes to 0. -/
theorem sfat_hash_matches_spec :
    (∀ s : List Nat, sfat_hash s = hashSpec s) ∧
    (∀ s t : List Nat, s = t → sfat_hash s = sfat_hash t) ∧
    sfat_hash [] = 0 :=
  ⟨fun s => sfat_hash_fold_eq s 0, fun _ _ h => by rw [h], rfl⟩

/-- Witness for C6 at concrete inputs. -/
theorem sfat_hash_matches_spec_witness :
    sfat_hash [97, 46, 116] = hashSpec [97, 46, 116] ∧
    sfat_hash [97] = sfat_hash [97] ∧ sfat_hash [] = 0 :=
  ⟨sfat_hash_matches_spec.1 [97, 46, 116],
   sfat_hash_matches_spec.2.1 [97] [97] rfl,
   sfat_hash_matches_spec.2.2⟩

/-! ## Theorems: panics of the read path (claims C2 and C3) -/

theorem parseHeader_invalid_bom (h0 h1 b0 b1 : Nat) (rest : List Nat)
    (hne1 : 256 * b0 + b1 ≠ 0xFEFF) (hne2 : 256 * b0 + b1 ≠ 0xFFFE) :
    parseHeader (0x53 :: 0x41 :: 0x52 :: 0x43 :: h0 :: h1 :: b0 :: b1 :: rest) = .panicked := by
  have he : endianOfU16 (256 * b0 + b1) = none := by
    unfold endianOfU16
    rw [if_neg hne1, if_neg hne2]
  simp only [parseHeader, he]

/-- C2 amended: on any buffer carrying the SARC magic whose byte order mark
field holds a value other than 0xFEFF or 0xFFFE, read panics (the wildcard
arm of the From u16 conversion) instead of returning an error value. -/
theorem read_panics_on_invalid_bom (h0 h1 b0 b1 : Nat) (rest : List Nat)
    (hne1 : 256 * b0 + b1 ≠ 0xFEFF) (hne2 : 256 * b0 + b1 ≠ 0xFFFE) :
    SarcFile.read (0x53 :: 0x41 :: 0x52 :: 0x43 :: h0 :: h1 :: b0 :: b1 :: rest) = .panicked := by
  unfold SarcFile.read
  rw [if_neg (by simp), if_neg (by simp [yaz0Magic]), if_neg (by simp [zstdMagic])]
  unfold SarcFile.parse
  rw [parseHeader_invalid_bom h0 h1 b0 b1 rest hne1 hne2]

/-- Witness for the amended C2 at a concrete input. -/
theorem read_panics_on_invalid_bom_witness :
    256 * 0 + 1 ≠ 0xFEFF ∧ 256 * 0 + 1 ≠ 0xFFFE ∧
    SarcFile.read [0x53, 0x41, 0x52, 0x43, 0x14, 0, 0, 1] = .panicked :=
  ⟨by decide, by decide, read_panics_on_invalid_bom 0x14 0 0 1 [] (by decide) (by decide)⟩

/-- C2 counterexample: on a SARC-magic buffer whose byte order mark field is
zero, read does not return an error value — it panics. -/
theorem read_bad_bom_is_not_an_error :
    SarcFile.read [0x53, 0x41, 0x52, 0x43, 0, 0, 0, 0] = .panicked ∧
    SarcFile.read [0x53, 0x41, 0x52, 0x43, 0, 0, 0, 0] ≠ .error .parseError ∧
    SarcFile.read [0x53, 0x41, 0x52, 0x43, 0, 0, 0, 0] ≠ .error .ioError := by
  decide

/-- C3: a well-formed 20-byte header whose data_offset field exceeds the
buffer length makes read panic (the out of range slice of the data region),
while the 3-byte buffer does return a parse error as the claim states. -/
theorem read_panics_on_oob_data_offset :
    SarcFile.read [0x53, 0x41, 0x52, 0x43, 0x14, 0, 0xFE, 0xFF,
      0, 0, 0, 0, 0xFF, 0xFF, 0xFF, 0xFF, 0, 0, 0, 0] = .panicked ∧
    SarcFile.read [0, 0, 0] = .error .parseError := by
  decide

/-! ## Theorems: the stable sort (claim C5) -/

theorem ordInsert_perm (key : α → Nat) (a : α) (l : List α) :
    (ordInsert key a l).Perm (a :: l) := by
  induction l with
  | nil => exact List.Perm.refl _
  | cons b t ih =>
      unfold ordInsert
      by_cases h : key a ≤ key b
      · rw [if_pos h]
      · rw [if_neg h]
        exact (ih.cons b).trans (List.Perm.swap a b t)

theorem insSort_perm (key : α → Nat) (l : List α) : (insSort key l).Perm l := by
  induction l with
  | nil => exact List.Perm.refl _
  | cons a t ih => exact (ordInsert_perm key a (insSort key t)).trans (ih.cons a)

theorem mem_ordInsert (key : α → Nat) (a x : α) (l : List α) :
    x ∈ ordInsert key a l ↔ x = a ∨ x ∈ l := by
  rw [(ordInsert_perm key a l).mem_iff, List.mem_cons]

theorem mem_insSort (key : α → Nat) (x : α) (l : List α) :
    x ∈ insSort key l ↔ x ∈ l :=
  (insSort_perm key l).mem_iff

theorem ordInsert_pairwise (key : α → Nat) (a : α) (l : List α)
    (h : l.Pairwise (fun x y => key x ≤ key y)) :
    (ordInsert key a l).Pairwise (fun x y => key x ≤ key y) := by
  induction l with
  | nil => simp [ordInsert]
  | cons b t ih =>
      rw [List.pairwise_cons] at h
      unfold ordInsert
      by_cases hab : key a ≤ key b
      · rw [if_pos hab]
        refine List.Pairwise.cons ?_ (List.Pairwise.cons h.1 h.2)
        intro x hx
        rcases List.mem_cons.mp hx with hx | hx
        · exact hx ▸ hab
        · exact le_trans hab (h.1 x hx)
      · rw [if_neg hab]
        refine List.Pairwise.cons ?_ (ih h.2)
        intro x hx
        rcases (mem_ordInsert key a x t).mp hx with hx | hx
        · exact hx ▸ le_of_not_le hab
        · exact h.1 x hx

theorem insSort_pairwise (key : α → Nat) (l : List α) :
    (insSort key l).Pairwise (fun x y => key x ≤ key y) := by
  induction l with
  | nil => exact List.Pairwise.nil
  | cons a t ih => exact ordInsert_pairwise key a (insSort key t) ih

theorem filter_ordInsert (key : α → Nat) (h : Nat) (a : α) (l : List α) :
    (ordInsert key a l).filter (fun x => key x == h)
      = if key a = h then a :: l.filter (fun x => key x == h)
        else l.filter (fun x => key x == h) := by
  induction l with
  | nil =>
      by_cases ha : key a = h <;> simp [ordInsert, List.filter_cons, ha]
  | cons b t ih =>
      unfold ordInsert
      by_cases hab : key a ≤ key b
      · rw [if_pos hab]
        by_cases ha : key a = h <;> by_cases hb : key b = h <;>
          simp [List.filter_cons, ha, hb]
      · rw [if_neg hab, List.filter_cons, ih]
        by_cases ha : key a = h
        · have hb : ¬ key b = h := by omega
          simp [ha, hb]
        · by_cases hb : key b = h <;> simp [ha, hb]

theorem filter_insSort (key : α → Nat) (h : Nat) (l : List α) :
    (insSort key l).filter (fun x => key x == h) = l.filter (fun x => key x == h) := by
  induction l with
  | nil => rfl
  | cons a t ih =>
      show (ordInsert key a (insSort key t)).filter _ = _
      rw [filter_ordInsert, List.filter_cons]
      by_cases ha : key a = h
      · rw [if_pos ha, ih]
        simp [ha]
      · rw [if_neg ha, ih]
        simp [ha]

/-- C5: the written file table is sorted by ascending name hash field (an
absent name counting as hash 0), and the records of any given hash keep
the original entry order (stable ties). -/
theorem written_table_sorted_stable (A : SarcFile) :
    (writtenTable A).Pairwise (fun r s => recKey r ≤ recKey s) ∧
    ∀ h : Nat, (writtenTable A).filter (fun r => recKey r == h)
      = (sfatRecsUnsorted A).filter (fun r => recKey r == h) := by
  constructor
  · exact insSort_pairwise recKey (sfatRecsUnsorted A)
  · intro h
    exact filter_insSort recKey h (sfatRecsUnsorted A)

/-! ## Theorems: alignment of the written layout (claim C7) -/

theorem align2000_le (x : Nat) : x ≤ align2000 x := by
  unfold align2000; omega

theorem align2000_mod (x : Nat) : align2000 x % 8192 = 0 := by
  unfold align2000; omega

theorem align2000_min (x m : Nat) (hm : m % 8192 = 0) (hx : x ≤ m) : align2000 x ≤ m := by
  unfold align2000; omega

theorem lookup_mem {β : Type} (k : Nat) (v : β) (m : List (Nat × β))
    (h : List.lookup k m = some v) : (k, v) ∈ m := by
  obtain ⟨l₁, l₂, rfl, -⟩ := List.lookup_eq_some_iff.mp h
  exact List.mem_append.mpr (Or.inr (List.mem_cons_self _ _))

theorem dataBuildAux_ranges_aligned (l : List (Nat × List Nat))
    (m : List (Nat × (Nat × Nat))) (d : List Nat)
    (hm : ∀ p ∈ m, p.2.1 % 8192 = 0) :
    ∀ p ∈ (dataBuildAux m d l).1, p.2.1 % 8192 = 0 := by
  induction l generalizing m d with
  | nil => exact hm
  | cons x t ih =>
      obtain ⟨h, fd⟩ := x
      refine ih _ _ ?_
      intro p hp
      rcases List.mem_cons.mp hp with hp | hp
      · subst hp
        show align2000 d.length % 2 ^ 32 % 8192 = 0
        rw [Nat.mod_mod_of_dvd _ (by norm_num), align2000_mod]
      · exact hm p hp

theorem written_range_start_aligned (A : SarcFile) (r : SfatRec)
    (hr : r ∈ writtenTable A) : r.file_range.1 % 8192 = 0 := by
  have hr2 : r ∈ sfatRecsUnsorted A := (mem_insSort _ r _).mp hr
  obtain ⟨f, _, hf⟩ := List.mem_map.mp hr2
  have : r.file_range = (List.lookup (hashOf f) (dataOffsets A)).getD (0, 0) := by
    rw [← hf]
  rw [this]
  cases hc : List.lookup (hashOf f) (dataOffsets A) with
  | none => simp
  | some v =>
      simp only [Option.getD_some]
      exact dataBuildAux_ranges_aligned _ [] [] (by intro p hp; simp at hp)
        (hashOf f, v) (lookup_mem _ _ _ hc)

/-- C7: in a freshly written archive the data_offset header field is the
least multiple of 8192 at least the byte position where the name table
ends, and every data_start field of the written file table is a multiple
of 8192. -/
theorem write_data_offset_aligned (A : SarcFile)
    (hlt : align2000 (dataPaddingOffset A) < 2 ^ 32) :
    (writeDataOffset A % 2 ^ 32) % 8192 = 0 ∧
    dataPaddingOffset A ≤ writeDataOffset A % 2 ^ 32 ∧
    (∀ m, m % 8192 = 0 → dataPaddingOffset A ≤ m → writeDataOffset A % 2 ^ 32 ≤ m) ∧
    ∀ r ∈ writtenTable A, r.file_range.1 % 8192 = 0 := by
  have he : writeDataOffset A % 2 ^ 32 = writeDataOffset A := Nat.mod_eq_of_lt hlt
  refine ⟨?_, ?_, ?_, ?_⟩
  · rw [he]; exact align2000_mod _
  · rw [he]; exact align2000_le _
  · intro m hm hx; rw [he]; exact align2000_min _ m hm hx
  · intro r hr; exact written_range_start_aligned A r hr

/-- Witness for C7 at a concrete archive. -/
theorem write_data_offset_aligned_witness :
    align2000 (dataPaddingOffset ⟨.little, [⟨none, [1, 2, 3]⟩]⟩) < 2 ^ 32 ∧
    ((writeDataOffset ⟨.little, [⟨none, [1, 2, 3]⟩]⟩ % 2 ^ 32) % 8192 = 0 ∧
     dataPaddingOffset ⟨.little, [⟨none, [1, 2, 3]⟩]⟩
       ≤ writeDataOffset ⟨.little, [⟨none, [1, 2, 3]⟩]⟩ % 2 ^ 32 ∧
     (∀ m, m % 8192 = 0 → dataPaddingOffset ⟨.little, [⟨none, [1, 2, 3]⟩]⟩ ≤ m →
       writeDataOffset ⟨.little, [⟨none, [1, 2, 3]⟩]⟩ % 2 ^ 32 ≤ m) ∧
     ∀ r ∈ writtenTable ⟨.little, [⟨none, [1, 2, 3]⟩]⟩, r.file_range.1 % 8192 = 0) :=
  ⟨by decide, write_data_offset_aligned ⟨.little, [⟨none, [1, 2, 3]⟩]⟩ (by decide)⟩

/-! ## Theorems: byte level primitives -/

theorem length_writeU16 (e : Endian) (n : Nat) : (writeU16 e n).length = 2 := by
  cases e <;> rfl

theorem length_writeU32 (e : Endian) (n : Nat) : (writeU32 e n).length = 4 := by
  cases e <;> rfl

theorem readU16_writeU16 (e : Endian) (n : Nat) (r : List Nat) :
    readU16 e (writeU16 e n ++ r) = some (n % 2 ^ 16, r) := by
  cases e <;> simp [readU16, writeU16] <;> omega

theorem readU32_writeU32 (e : Endian) (n : Nat) (r : List Nat) :
    readU32 e (writeU32 e n ++ r) = some (n % 2 ^ 32, r) := by
  cases e <;> simp [readU32, writeU32] <;> omega

theorem flag_eq_two_pow : (0x01000000 : Nat) = 2 ^ 24 := by norm_num

theorem lor_flag_mod (x : Nat) (hx : x < 2 ^ 16) :
    (x ||| 0x01000000) % 2 ^ 16 = x := by
  rw [flag_eq_two_pow]
  apply Nat.eq_of_testBit_eq
  intro i
  rw [Nat.testBit_mod_two_pow, Nat.testBit_lor]
  by_cases hi : i < 16
  · rw [Nat.testBit_two_pow_of_ne (by omega)]
    simp [hi]
  · have hxi : x.testBit i = false :=
      Nat.testBit_lt_two_pow (lt_of_lt_of_le hx (Nat.pow_le_pow_right (by omega) (by omega)))
    simp [hi, hxi]

theorem lor_flag_land (x : Nat) : (x ||| 0x01000000) &&& 0x01000000 ≠ 0 := by
  intro h
  have h24 : ((x ||| 0x01000000) &&& 0x01000000).testBit 24 = false := by
    rw [h]; exact Nat.zero_testBit 24
  rw [Nat.testBit_land, Nat.testBit_lor, flag_eq_two_pow, Nat.testBit_two_pow_self] at h24
  simp at h24

theorem lor_flag_lt (x : Nat) (hx : x < 2 ^ 30) : (x ||| 0x01000000) < 2 ^ 32 := by
  apply Nat.lt_pow_two_of_testBit
  intro i hi
  rw [Nat.testBit_lor, flag_eq_two_pow]
  have hxi : x.testBit i = false :=
    Nat.testBit_lt_two_pow (lt_of_lt_of_le hx (Nat.pow_le_pow_right (by omega) (by omega)))
  rw [hxi, Nat.testBit_two_pow_of_ne (by omega)]
  rfl

/-! ## Theorems: name encoding round trip -/

theorem takeUntilZero_append (xs r : List Nat) (hxs : ∀ b ∈ xs, b ≠ 0) :
    takeUntilZero (xs ++ 0 :: r) = some xs := by
  induction xs with
  | nil => rfl
  | cons b t ih =>
      have hb : b ≠ 0 := hxs b (List.mem_cons_self b t)
      obtain ⟨k, rfl⟩ : ∃ k, b = k + 1 := ⟨b - 1, by omega⟩
      show (takeUntilZero (t ++ 0 :: r)).map _ = _
      rw [ih (fun x hx => hxs x (List.mem_cons_of_mem _ hx))]
      rfl

theorem utf8EncodeChar_ne_zero (c : Nat) (hc : c ≠ 0) :
    ∀ b ∈ utf8EncodeChar c, b ≠ 0 := by
  intro b hb
  unfold utf8EncodeChar at hb
  split_ifs at hb <;>
    simp only [List.mem_cons, List.not_mem_nil, or_false] at hb <;>
    omega

theorem utf8Encode_ne_zero (nm : List Nat) (h : ∀ c ∈ nm, c ≠ 0) :
    ∀ b ∈ utf8Encode nm, b ≠ 0 := by
  intro b hb
  rw [utf8Encode, List.mem_flatten] at hb
  obtain ⟨l, hl, hbl⟩ := hb
  obtain ⟨c, hc, rfl⟩ := List.mem_map.mp hl
  exact utf8EncodeChar_ne_zero c (h c hc) b hbl

theorem utf8DecodeOne_encodeChar (c : Nat) (hval : c < 0x110000)
    (hsur : ¬ (0xD800 ≤ c ∧ c < 0xE000)) (rest : List Nat) :
    utf8DecodeOne (utf8EncodeChar c ++ rest) = some (c, rest) := by
  by_cases h1 : c < 0x80
  · rw [utf8EncodeChar, if_pos h1]
    show utf8DecodeOne (c :: rest) = _
    simp only [utf8DecodeOne]
    rw [if_pos h1]
  · by_cases h2 : c < 0x800
    · rw [utf8EncodeChar, if_neg h1, if_pos h2]
      show utf8DecodeOne ((0xC0 + c / 64) :: (0x80 + c % 64) :: rest) = _
      simp only [utf8DecodeOne]
      rw [if_neg (by omega), if_neg (by omega), if_pos (by omega), if_pos (by omega)]
      have hc : (0xC0 + c / 64 - 0xC0) * 64 + (0x80 + c % 64 - 0x80) = c := by omega
      rw [hc]
    · by_cases h3 : c < 0x10000
      · rw [utf8EncodeChar, if_neg h1, if_neg h2, if_pos h3]
        show utf8DecodeOne ((0xE0 + c / 4096) :: (0x80 + c / 64 % 64) :: (0x80 + c % 64) :: rest) = _
        simp only [utf8DecodeOne]
        rw [if_neg (by omega), if_neg (by omega), if_neg (by omega), if_pos (by omega),
          if_pos (by refine ⟨?_, by omega⟩; split_ifs <;> omega)]
        have hc : (0xE0 + c / 4096 - 0xE0) * 4096 + (0x80 + c / 64 % 64 - 0x80) * 64
            + (0x80 + c % 64 - 0x80) = c := by omega
        rw [hc]
      · rw [utf8EncodeChar, if_neg h1, if_neg h2, if_neg h3]
        show utf8DecodeOne ((0xF0 + c / 262144) :: (0x80 + c / 4096 % 64) :: (0x80 + c / 64 % 64)
            :: (0x80 + c % 64) :: rest) = _
        simp only [utf8DecodeOne]
        rw [if_neg (by omega), if_neg (by omega), if_neg (by omega), if_neg (by omega),
          if_pos (by omega),
          if_pos (by refine ⟨?_, by omega, by omega⟩; split_ifs <;> omega)]
        have hc : (0xF0 + c / 262144 - 0xF0) * 262144 + (0x80 + c / 4096 % 64 - 0x80) * 4096
            + (0x80 + c / 64 % 64 - 0x80) * 64 + (0x80 + c % 64 - 0x80) = c := by omega
        rw [hc]

theorem utf8DecodeOne_shorter (l : List Nat) (c : Nat) (r : List Nat)
    (h : utf8DecodeOne l = some (c, r)) : r.length < l.length := by
  match l with
  | [] => simp [utf8DecodeOne] at h
  | [b] =>
      simp only [utf8DecodeOne] at h
      split_ifs at h <;>
        simp at h <;>
        (obtain ⟨-, rfl⟩ := h
         simp only [List.length_cons, List.length_nil]
         omega)
  | [b, b1] =>
      simp only [utf8DecodeOne] at h
      split_ifs at h <;>
        simp at h <;>
        (obtain ⟨-, rfl⟩ := h
         simp only [List.length_cons, List.length_nil]
         omega)
  | [b, b1, b2] =>
      simp only [utf8DecodeOne] at h
      split_ifs at h <;>
        simp at h <;>
        (obtain ⟨-, rfl⟩ := h
         simp only [List.length_cons, List.length_nil]
         omega)
  | b :: b1 :: b2 :: b3 :: rest =>
      simp only [utf8DecodeOne] at h
      split_ifs at h <;>
        simp at h <;>
        (obtain ⟨-, rfl⟩ := h
         simp only [List.length_cons, List.length_nil]
         omega)

theorem utf8DecodeLoop_nil (f : Nat) : utf8DecodeLoop f [] = some [] := by
  cases f <;> rfl

theorem utf8DecodeLoop_sufficient (n : Nat) : ∀ (l : List Nat), l.length ≤ n →
    ∀ f, l.length ≤ f → utf8DecodeLoop f l = utf8DecodeLoop l.length l := by
  induction n with
  | zero =>
      intro l hl f _
      have hnil : l = [] := List.length_eq_zero.mp (by omega)
      subst hnil
      rw [utf8DecodeLoop_nil, utf8DecodeLoop_nil]
  | succ n ih =>
      intro l hl f hf
      match l with
      | [] => rw [utf8DecodeLoop_nil, utf8DecodeLoop_nil]
      | b :: rest =>
          have hlen : (b :: rest).length = rest.length + 1 := rfl
          rw [hlen] at hl hf
          obtain ⟨f1, rfl⟩ : ∃ f1, f = f1 + 1 := ⟨f - 1, by omega⟩
          rw [hlen, utf8DecodeLoop.eq_3, utf8DecodeLoop.eq_3]
          cases hdec : utf8DecodeOne (b :: rest) with
          | none => rfl
          | some p =>
              obtain ⟨c, r⟩ := p
              have hr : r.length < rest.length + 1 := utf8DecodeOne_shorter _ _ _ hdec
              have hn : r.length ≤ n := by omega
              show (utf8DecodeLoop f1 r).map (fun l => c :: l)
                = (utf8DecodeLoop rest.length r).map (fun l => c :: l)
              rw [ih r hn f1 (by omega), ih r hn rest.length (by omega)]

theorem utf8Decode_step (x rest1 : List Nat) (c : Nat) (hx : 1 ≤ x.length)
    (hone : utf8DecodeOne (x ++ rest1) = some (c, rest1)) :
    utf8Decode (x ++ rest1) = (utf8Decode rest1).map (fun l => c :: l) := by
  match x, hx with
  | b :: x1, _ =>
      show utf8DecodeLoop ((b :: x1) ++ rest1).length ((b :: x1) ++ rest1) = _
      rw [List.cons_append] at hone ⊢
      rw [show (b :: (x1 ++ rest1)).length = (x1 ++ rest1).length + 1 from rfl,
        utf8DecodeLoop.eq_3, hone]
      simp only []
      rw [utf8DecodeLoop_sufficient (x1 ++ rest1).length rest1 (by simp)
        (x1 ++ rest1).length (by simp)]
      rfl

theorem utf8Decode_encode (nm : List Nat) (h : ∀ c ∈ nm, ValidScalar c) :
    utf8Decode (utf8Encode nm) = some nm := by
  induction nm with
  | nil => rfl
  | cons c t ih =>
      have hc := h c (List.mem_cons_self c t)
      have henc : utf8Encode (c :: t) = utf8EncodeChar c ++ utf8Encode t := by
        simp [utf8Encode]
      have hlen : 1 ≤ (utf8EncodeChar c).length := by
        unfold utf8EncodeChar
        split_ifs <;> simp
      rw [henc, utf8Decode_step _ _ c hlen (utf8DecodeOne_encodeChar c hc.1 hc.2 _),
        ih (fun x hx => h x (List.mem_cons_of_mem _ hx))]
      rfl

theorem get_string_at (pre nm post : List Nat)
    (hval : ∀ c ∈ nm, ValidScalar c ∧ c ≠ 0) :
    get_string (pre ++ (sarcStringBytes nm ++ post)) pre.length = some nm := by
  unfold get_string
  rw [List.drop_left]
  have hb : sarcStringBytes nm ++ post
      = utf8Encode nm ++ 0 :: (List.replicate ((4 - (utf8Encode nm ++ [0]).length % 4) % 4) 0 ++ post) := by
    unfold sarcStringBytes
    simp [List.append_assoc]
  rw [hb, takeUntilZero_append _ _ (utf8Encode_ne_zero nm (fun c hc => (hval c hc).2))]
  exact utf8Decode_encode nm (fun c hc => (hval c hc).1)

/-! ## Theorems: the section builders -/

theorem lookup_cons_ne {β : Type} (k k0 : Nat) (v : β) (m : List (Nat × β)) (h : k ≠ k0) :
    List.lookup k ((k0, v) :: m) = List.lookup k m := by
  rw [List.lookup, show (k == k0) = false from beq_eq_false_iff_ne.mpr h]

theorem lookup_cons_eq {β : Type} (k : Nat) (v : β) (m : List (Nat × β)) :
    List.lookup k ((k, v) :: m) = some v := by
  simp [List.lookup]

theorem sarcStringBytes_len_dvd (nm : List Nat) : 4 ∣ (sarcStringBytes nm).length := by
  unfold sarcStringBytes
  simp only [List.length_append, List.length_replicate, List.length_cons]
  omega

theorem sarcStringBytes_len_ge (nm : List Nat) : 4 ≤ (sarcStringBytes nm).length := by
  unfold sarcStringBytes
  simp only [List.length_append, List.length_replicate, List.length_cons]
  omega

theorem strBuildAux_extend (l : List (List Nat)) (m : List (Nat × Nat)) (sec : List Nat) :
    ∃ ext, (strBuildAux m sec l).2 = sec ++ ext := by
  induction l generalizing m sec with
  | nil => exact ⟨[], by simp [strBuildAux]⟩
  | cons nm t ih =>
      obtain ⟨ext, hext⟩ := ih ((sfat_hash nm, sec.length) :: m) (sec ++ sarcStringBytes nm)
      exact ⟨sarcStringBytes nm ++ ext, by rw [strBuildAux, hext, List.append_assoc]⟩

theorem strBuildAux_lookup_frozen (l : List (List Nat)) (m : List (Nat × Nat)) (sec : List Nat)
    (k : Nat) (hk : k ∉ l.map sfat_hash) :
    List.lookup k (strBuildAux m sec l).1 = List.lookup k m := by
  induction l generalizing m sec with
  | nil => rfl
  | cons nm t ih =>
      rw [strBuildAux]
      rw [ih _ _ (fun hmem => hk (List.mem_cons.mpr (Or.inr hmem)))]
      exact lookup_cons_ne _ _ _ _ (fun he => hk (List.mem_cons.mpr (Or.inl he)))

theorem strBuildAux_decomp (nm : List Nat) :
    ∀ (l : List (List Nat)), (l.map sfat_hash).Nodup → nm ∈ l →
    ∀ (m : List (Nat × Nat)) (sec : List Nat), 4 ∣ sec.length →
    ∃ pre post, (strBuildAux m sec l).2 = sec ++ (pre ++ (sarcStringBytes nm ++ post)) ∧
      List.lookup (sfat_hash nm) (strBuildAux m sec l).1 = some (sec.length + pre.length) ∧
      4 ∣ pre.length := by
  intro l
  induction l with
  | nil => intro _ hmem; cases hmem
  | cons x t ih =>
      intro hnd hmem m sec hsec
      rw [strBuildAux]
      rcases List.mem_cons.mp hmem with rfl | hmem2
      · obtain ⟨ext, hext⟩ :=
          strBuildAux_extend t ((sfat_hash nm, sec.length) :: m) (sec ++ sarcStringBytes nm)
        refine ⟨[], ext, ?_, ?_, by simp⟩
        · rw [hext, List.append_assoc]
          simp
        · have hnotin : sfat_hash nm ∉ t.map sfat_hash := (List.nodup_cons.mp hnd).1
          rw [strBuildAux_lookup_frozen t _ _ _ hnotin, lookup_cons_eq]
          simp
      · have hnd2 : (t.map sfat_hash).Nodup := (List.nodup_cons.mp hnd).2
        obtain ⟨pre, post, h1, h2, h3⟩ := ih hnd2 hmem2 ((sfat_hash x, sec.length) :: m)
          (sec ++ sarcStringBytes x)
          (by rw [List.length_append]; exact dvd_add hsec (sarcStringBytes_len_dvd x))
        refine ⟨sarcStringBytes x ++ pre, post, ?_, ?_, ?_⟩
        · rw [h1]
          simp [List.append_assoc]
        · rw [h2, List.length_append, List.length_append]
          congr 1
          omega
        · rw [List.length_append]
          exact dvd_add (sarcStringBytes_len_dvd x) h3

theorem strBuildAux_offset_bound (l : List (List Nat)) (m : List (Nat × Nat)) (sec : List Nat) :
    ∀ p ∈ (strBuildAux m sec l).1, p ∈ m ∨ p.2 + 4 ≤ (strBuildAux m sec l).2.length := by
  induction l generalizing m sec with
  | nil => intro p hp; exact Or.inl hp
  | cons x t ih =>
      intro p hp
      rw [strBuildAux] at hp ⊢
      rcases ih _ _ p hp with hm | hb
      · rcases List.mem_cons.mp hm with rfl | hm2
        · right
          obtain ⟨ext, hext⟩ :=
            strBuildAux_extend t ((sfat_hash x, sec.length) :: m) (sec ++ sarcStringBytes x)
          rw [hext]
          simp only [List.length_append]
          have := sarcStringBytes_len_ge x
          omega
        · exact Or.inl hm2
      · exact Or.inr hb

theorem dataBuildAux_extend (l : List (Nat × List Nat)) (m : List (Nat × (Nat × Nat)))
    (d : List Nat) : ∃ ext, (dataBuildAux m d l).2 = d ++ ext := by
  induction l generalizing m d with
  | nil => exact ⟨[], by simp [dataBuildAux]⟩
  | cons x t ih =>
      obtain ⟨h, fd⟩ := x
      rw [dataBuildAux]
      obtain ⟨ext, hext⟩ := ih _ (d ++ List.replicate (align2000 d.length - d.length) 0 ++ fd)
      refine ⟨List.replicate (align2000 d.length - d.length) 0 ++ fd ++ ext, ?_⟩
      rw [hext]
      simp [List.append_assoc]

theorem dataBuildAux_len_le (l : List (Nat × List Nat)) (m : List (Nat × (Nat × Nat)))
    (d : List Nat) : d.length ≤ (dataBuildAux m d l).2.length := by
  obtain ⟨ext, hext⟩ := dataBuildAux_extend l m d
  rw [hext, List.length_append]
  omega

theorem dataBuildAux_lookup_frozen (l : List (Nat × List Nat))
    (m : List (Nat × (Nat × Nat))) (d : List Nat) (k : Nat) (hk : k ∉ l.map Prod.fst) :
    List.lookup k (dataBuildAux m d l).1 = List.lookup k m := by
  induction l generalizing m d with
  | nil => rfl
  | cons x t ih =>
      obtain ⟨h, fd⟩ := x
      rw [dataBuildAux]
      rw [ih _ _ (fun hmem => hk (List.mem_cons.mpr (Or.inr hmem)))]
      exact lookup_cons_ne _ _ _ _ (fun he => hk (List.mem_cons.mpr (Or.inl he)))

theorem dataBuildAux_decomp (h : Nat) (fd : List Nat) :
    ∀ (l : List (Nat × List Nat)), (l.map Prod.fst).Nodup → (h, fd) ∈ l →
    ∀ (m : List (Nat × (Nat × Nat))) (d : List Nat),
    ∃ preD post, (dataBuildAux m d l).2 = preD ++ (fd ++ post) ∧
      List.lookup h (dataBuildAux m d l).1
        = some (preD.length % 2 ^ 32, (preD.length + fd.length) % 2 ^ 32) ∧
      preD.length % 8192 = 0 ∧ d.length ≤ preD.length := by
  intro l
  induction l with
  | nil => intro _ hmem; cases hmem
  | cons x t ih =>
      intro hnd hmem m d
      rcases List.mem_cons.mp hmem with rfl | hmem2
      · rw [dataBuildAux]
        have hpre : (d ++ List.replicate (align2000 d.length - d.length) 0).length
            = align2000 d.length := by
          simp only [List.length_append, List.length_replicate]
          have := align2000_le d.length
          omega
        obtain ⟨ext, hext⟩ := dataBuildAux_extend t _
          (d ++ List.replicate (align2000 d.length - d.length) 0 ++ fd)
        refine ⟨d ++ List.replicate (align2000 d.length - d.length) 0, ext, ?_, ?_, ?_, ?_⟩
        · rw [hext]
          simp [List.append_assoc]
        · have hnotin : h ∉ t.map Prod.fst := by
            have := (List.nodup_cons.mp hnd).1
            simpa using this
          rw [dataBuildAux_lookup_frozen t _ _ _ hnotin]
          rw [hpre]
          have hlen2 : (d ++ List.replicate (align2000 d.length - d.length) 0 ++ fd).length
              = align2000 d.length + fd.length := by
            rw [List.append_assoc, List.length_append, List.length_append,
              List.length_replicate]
            have := align2000_le d.length
            omega
          rw [hlen2, lookup_cons_eq]
        · rw [hpre]; exact align2000_mod _
        · rw [hpre]; exact align2000_le _
      · have hnd2 : (t.map Prod.fst).Nodup := (List.nodup_cons.mp hnd).2
        obtain ⟨h0, fd0⟩ := x
        rw [dataBuildAux]
        obtain ⟨preD, post, h1, h2, h3, h4⟩ := ih hnd2 hmem2 _
          (d ++ List.replicate (align2000 d.length - d.length) 0 ++ fd0)
        refine ⟨preD, post, h1, h2, h3, ?_⟩
        have : d.length ≤ (d ++ List.replicate (align2000 d.length - d.length) 0 ++ fd0).length := by
          simp only [List.append_assoc, List.length_append]
          omega
        omega

theorem dataBuildAux_values (l : List (Nat × List Nat)) (m : List (Nat × (Nat × Nat)))
    (d : List Nat) :
    ∀ p ∈ (dataBuildAux m d l).1, p ∈ m ∨
      ∃ s e2, p.2 = (s % 2 ^ 32, e2 % 2 ^ 32) ∧ s ≤ e2 ∧ e2 ≤ (dataBuildAux m d l).2.length := by
  induction l generalizing m d with
  | nil => intro p hp; exact Or.inl hp
  | cons x t ih =>
      obtain ⟨h, fd⟩ := x
      intro p hp
      rw [dataBuildAux] at hp ⊢
      rcases ih _ _ p hp with hm | hb
      · rcases List.mem_cons.mp hm with rfl | hm2
        · right
          refine ⟨align2000 d.length, align2000 d.length + fd.length, ?_, by omega, ?_⟩
          · have hlen2 : (d ++ List.replicate (align2000 d.length - d.length) 0 ++ fd).length
                = align2000 d.length + fd.length := by
              rw [List.append_assoc, List.length_append, List.length_append,
                List.length_replicate]
              have := align2000_le d.length
              omega
            rw [hlen2]
          · have hle := dataBuildAux_len_le t
              ((h, (align2000 d.length % 2 ^ 32,
                (d ++ List.replicate (align2000 d.length - d.length) 0 ++ fd).length % 2 ^ 32)) :: m)
              (d ++ List.replicate (align2000 d.length - d.length) 0 ++ fd)
            have hlen2 : (d ++ List.replicate (align2000 d.length - d.length) 0 ++ fd).length
                = align2000 d.length + fd.length := by
              rw [List.append_assoc, List.length_append, List.length_append,
                List.length_replicate]
              have := align2000_le d.length
              omega
            omega
        · exact Or.inl hm2
      · exact Or.inr hb

/-! ## Theorems: parsing what the writer produced -/

theorem length_sfatRecBytes (e : Endian) (r : SfatRec) : (sfatRecBytes e r).length = 16 := by
  unfold sfatRecBytes
  simp [length_writeU32]

theorem length_flatten_recBytes (e : Endian) (recs : List SfatRec) :
    ((recs.map (sfatRecBytes e)).flatten).length = 16 * recs.length := by
  induction recs with
  | nil => rfl
  | cons r t ih =>
      simp only [List.map_cons, List.flatten_cons, List.length_append, length_sfatRecBytes,
        ih, List.length_cons]
      ring

theorem parseNode_recBytes (e : Endian) (r : SfatRec) (rest : List Nat)
    (hs : r.file_range.1 < 2 ^ 32) (he : r.file_range.2 < 2 ^ 32)
    (hoff : ∀ o, r.name_table_offset = some o → (o / 4) ||| 0x01000000 < 2 ^ 32) :
    parseNode e (sfatRecBytes e r ++ rest) = some (rest, nodeOfRec r) := by
  unfold sfatRecBytes
  rw [List.append_assoc, List.append_assoc, List.append_assoc]
  unfold parseNode
  simp only [readU32_writeU32, Option.bind_eq_bind, Option.some_bind]
  rw [Nat.mod_eq_of_lt hs, Nat.mod_eq_of_lt he]
  cases hnto : r.name_table_offset with
  | none => simp [nodeOfRec, hnto]
  | some o =>
      have hlt := hoff o hnto
      have hm : (o / 4 ||| 16777216) % 4294967296 = o / 4 ||| 16777216 := by omega
      simp [nodeOfRec, hnto, hm, lor_flag_land (o / 4)]

theorem parseNodes_recBytes (e : Endian) (k : Nat) :
    ∀ (recs : List SfatRec), k ≤ recs.length →
    (∀ r ∈ recs, r.file_range.1 < 2 ^ 32 ∧ r.file_range.2 < 2 ^ 32 ∧
      ∀ o, r.name_table_offset = some o → (o / 4) ||| 0x01000000 < 2 ^ 32) →
    ∀ rest, parseNodes e k ((recs.map (sfatRecBytes e)).flatten ++ rest)
      = some ((((recs.drop k).map (sfatRecBytes e)).flatten ++ rest),
          (recs.take k).map nodeOfRec) := by
  induction k with
  | zero => intro recs _ _ rest; simp [parseNodes]
  | succ k ih =>
      intro recs hk hb rest
      match recs with
      | [] => simp at hk
      | r :: rt =>
          have hbr := hb r (List.mem_cons_self r rt)
          simp only [List.map_cons, List.flatten_cons, List.append_assoc]
          rw [parseNodes]
          rw [parseNode_recBytes e r _ hbr.1 hbr.2.1 hbr.2.2]
          simp only [Option.bind_eq_bind, Option.some_bind]
          rw [ih rt (by simpa using hk) (fun r2 h2 => hb r2 (List.mem_cons_of_mem _ h2)) rest]
          simp only [Option.bind_eq_bind, Option.some_bind, List.drop_succ_cons,
            List.take_succ_cons, List.map_cons]

theorem length_writtenTable (A : SarcFile) :
    (writtenTable A).length = A.files.length := by
  unfold writtenTable get_sfat_entries
  rw [(insSort_perm _ _).length_eq, List.length_map]

theorem length_headerBytes (A : SarcFile) : (headerBytes A).length = 20 := by
  unfold headerBytes
  simp [length_writeU16, length_writeU32]

theorem length_sfatBytes (A : SarcFile) :
    (sfatBytes A).length = 12 + 16 * A.files.length := by
  unfold sfatBytes
  simp only [List.length_append, length_writeU16, length_writeU32, length_flatten_recBytes,
    length_writtenTable, List.length_cons, List.length_nil]
  try omega

theorem length_sfntBytes (A : SarcFile) : (sfntBytes A).length = 8 := by
  unfold sfntBytes
  simp [length_writeU16]

theorem length_write (A : SarcFile) :
    (SarcFile.write A).length = writeDataOffset A + (dataSection A).length := by
  have hdpo : dataPaddingOffset A
      = 0x14 + 0xC + A.files.length * 0x10 + 8 + (strSection A).length := rfl
  have hle : dataPaddingOffset A ≤ writeDataOffset A := align2000_le _
  unfold SarcFile.write
  simp only [List.length_append, length_headerBytes, length_sfatBytes, length_sfntBytes,
    padBytes, List.length_replicate]
  omega

theorem write_drop_dataOffset (A : SarcFile) :
    (SarcFile.write A).drop (writeDataOffset A) = dataSection A := by
  have hdpo : dataPaddingOffset A
      = 0x14 + 0xC + A.files.length * 0x10 + 8 + (strSection A).length := rfl
  have hle : dataPaddingOffset A ≤ writeDataOffset A := align2000_le _
  unfold SarcFile.write
  rw [show headerBytes A ++ sfatBytes A ++ sfntBytes A ++ strSection A ++ padBytes A
        ++ dataSection A
      = (headerBytes A ++ sfatBytes A ++ sfntBytes A ++ strSection A ++ padBytes A)
        ++ dataSection A from by simp [List.append_assoc]]
  apply List.drop_left'
  simp only [List.length_append, length_headerBytes, length_sfatBytes, length_sfntBytes,
    padBytes, List.length_replicate]
  omega

theorem parseHeader_write (A : SarcFile) :
    parseHeader (SarcFile.write A)
      = .ok (sfatBytes A ++ (sfntBytes A ++ (strSection A ++ (padBytes A ++ dataSection A))))
          (A.byte_order, (writeDataOffset A + (dataSection A).length) % 2 ^ 32,
            writeDataOffset A % 2 ^ 32) := by
  obtain ⟨bo, files⟩ := A
  cases bo <;>
    (simp only [SarcFile.write, headerBytes]
     norm_num [writeU16, List.append_assoc]
     simp only [parseHeader, endianOfU16]
     norm_num
     rw [readU32_writeU32]
     norm_num
     rw [readU32_writeU32]
     norm_num [readU32])

theorem writeCountField_lt (A : SarcFile) : writeCountField A < 2 ^ 16 :=
  Nat.mod_lt _ (by decide)

theorem writeCountField_le (A : SarcFile) : writeCountField A ≤ (writtenTable A).length := by
  rw [length_writtenTable]
  exact Nat.mod_le _ _

theorem parse_sfat_write (A : SarcFile)
    (hb : ∀ r ∈ writtenTable A, r.file_range.1 < 2 ^ 32 ∧ r.file_range.2 < 2 ^ 32 ∧
      ∀ o, r.name_table_offset = some o → (o / 4) ||| 0x01000000 < 2 ^ 32) :
    parse_sfat A.byte_order
        (sfatBytes A ++ (sfntBytes A ++ (strSection A ++ (padBytes A ++ dataSection A))))
      = some (((((writtenTable A).drop (writeCountField A)).map
              (sfatRecBytes A.byte_order)).flatten
            ++ (sfntBytes A ++ (strSection A ++ (padBytes A ++ dataSection A)))),
          (0x65, ((writtenTable A).take (writeCountField A)).map nodeOfRec)) := by
  rw [show sfatBytes A ++ (sfntBytes A ++ (strSection A ++ (padBytes A ++ dataSection A)))
      = 0x53 :: 0x46 :: 0x41 :: 0x54 :: (writeU16 A.byte_order 0xC ++
          (writeU16 A.byte_order (writeCountField A) ++ (writeU32 A.byte_order 0x65 ++
            (((writtenTable A).map (sfatRecBytes A.byte_order)).flatten ++
              (sfntBytes A ++ (strSection A ++ (padBytes A ++ dataSection A)))))))
    from by simp [sfatBytes, List.append_assoc]]
  rw [parse_sfat]
  rw [readU16_writeU16]
  simp only [Option.bind_eq_bind, Option.some_bind]
  rw [readU16_writeU16]
  simp only [Option.bind_eq_bind, Option.some_bind]
  rw [Nat.mod_eq_of_lt (writeCountField_lt A)]
  rw [readU32_writeU32]
  simp only [Option.bind_eq_bind, Option.some_bind]
  rw [parseNodes_recBytes A.byte_order (writeCountField A) (writtenTable A)
    (writeCountField_le A) hb]
  simp only [Option.bind_eq_bind, Option.some_bind]
  norm_num

theorem writtenTable_mem_shape (A : SarcFile) (r : SfatRec) (hr : r ∈ writtenTable A) :
    ∃ f ∈ A.files, r.name = f.name ∧
      r.name_table_offset
        = f.name.bind (fun nm => List.lookup (sfat_hash nm) (strOffsets A)) ∧
      r.file_range = (List.lookup (hashOf f) (dataOffsets A)).getD (0, 0) := by
  have hr2 : r ∈ sfatRecsUnsorted A := (mem_insSort _ r _).mp hr
  obtain ⟨f, hf, hfr⟩ := List.mem_map.mp hr2
  exact ⟨f, hf, by rw [← hfr], by rw [← hfr], by rw [← hfr]⟩

theorem dataOffsets_getD_ok (A : SarcFile) (hdata : (dataSection A).length < 2 ^ 32)
    (k : Nat) :
    ((List.lookup k (dataOffsets A)).getD (0, 0)).1 < 2 ^ 32 ∧
    ((List.lookup k (dataOffsets A)).getD (0, 0)).2 < 2 ^ 32 ∧
    ((List.lookup k (dataOffsets A)).getD (0, 0)).1
      ≤ ((List.lookup k (dataOffsets A)).getD (0, 0)).2 ∧
    ((List.lookup k (dataOffsets A)).getD (0, 0)).2 ≤ (dataSection A).length := by
  cases hc : List.lookup k (dataOffsets A) with
  | none =>
      rw [Option.getD_none]
      exact ⟨by norm_num, by norm_num, le_refl 0, Nat.zero_le _⟩
  | some v =>
      rcases dataBuildAux_values _ [] [] _ (lookup_mem _ _ _ hc) with hm | ⟨s, e2, hv, hse, he2⟩
      · cases hm
      · have hv2 : v = (s % 2 ^ 32, e2 % 2 ^ 32) := hv
        rw [Option.getD_some, hv2]
        have he2' : e2 < 2 ^ 32 := lt_of_le_of_lt he2 hdata
        have hs' : s < 2 ^ 32 := lt_of_le_of_lt hse he2'
        show s % 2 ^ 32 < 2 ^ 32 ∧ e2 % 2 ^ 32 < 2 ^ 32 ∧
          s % 2 ^ 32 ≤ e2 % 2 ^ 32 ∧ e2 % 2 ^ 32 ≤ (dataSection A).length
        rw [Nat.mod_eq_of_lt hs', Nat.mod_eq_of_lt he2']
        exact ⟨hs', he2', hse, he2⟩

theorem strOffsets_bound (A : SarcFile) (k o : Nat)
    (h : List.lookup k (strOffsets A) = some o) : o + 4 ≤ (strSection A).length := by
  rcases strBuildAux_offset_bound _ [] [] (k, o) (lookup_mem _ _ _ h) with hm | hb
  · cases hm
  · exact hb

theorem writtenTable_bounds (A : SarcFile) (hstr : (strSection A).length < 2 ^ 30)
    (hdata : (dataSection A).length < 2 ^ 32) :
    ∀ r ∈ writtenTable A, r.file_range.1 < 2 ^ 32 ∧ r.file_range.2 < 2 ^ 32 ∧
      ∀ o, r.name_table_offset = some o → (o / 4) ||| 0x01000000 < 2 ^ 32 := by
  intro r hr
  obtain ⟨f, -, -, hnto, hfr⟩ := writtenTable_mem_shape A r hr
  have hd := dataOffsets_getD_ok A hdata (hashOf f)
  refine ⟨by rw [hfr]; exact hd.1, by rw [hfr]; exact hd.2.1, ?_⟩
  intro o ho
  rw [hnto] at ho
  cases hnm : f.name with
  | none => rw [hnm] at ho; exact absurd ho (by simp)
  | some nm =>
      rw [hnm, Option.some_bind] at ho
      have hb2 := strOffsets_bound A (sfat_hash nm) o ho
      apply lor_flag_lt
      omega

theorem writtenTable_ranges_ok (A : SarcFile) (hdata : (dataSection A).length < 2 ^ 32) :
    ∀ r ∈ writtenTable A,
      r.file_range.1 ≤ r.file_range.2 ∧ r.file_range.2 ≤ (dataSection A).length := by
  intro r hr
  obtain ⟨f, -, -, -, hfr⟩ := writtenTable_mem_shape A r hr
  have hd := dataOffsets_getD_ok A hdata (hashOf f)
  exact ⟨by rw [hfr]; exact hd.2.2.1, by rw [hfr]; exact hd.2.2.2⟩

theorem parse_write_general (A : SarcFile)
    (hstr : (strSection A).length < 2 ^ 30)
    (htot : writeDataOffset A + (dataSection A).length < 2 ^ 32) :
    SarcFile.parse (SarcFile.write A)
      = .ok ((((writtenTable A).drop (writeCountField A)).map
              (sfatRecBytes A.byte_order)).flatten
            ++ (sfntBytes A ++ (strSection A ++ (padBytes A ++ dataSection A))))
          ⟨A.byte_order, ((writtenTable A).take (writeCountField A)).map
            (fun r => assembleEntry
              (((((writtenTable A).drop (writeCountField A)).map
                  (sfatRecBytes A.byte_order)).flatten
                ++ (sfntBytes A ++ (strSection A ++ (padBytes A ++ dataSection A)))).drop 8)
              (dataSection A) (nodeOfRec r))⟩ := by
  have hdata : (dataSection A).length < 2 ^ 32 := by omega
  have hdoff : writeDataOffset A % 2 ^ 32 = writeDataOffset A :=
    Nat.mod_eq_of_lt (by omega)
  have hb := writtenTable_bounds A hstr hdata
  unfold SarcFile.parse
  rw [parseHeader_write A]
  simp only [hdoff]
  rw [if_neg (by rw [length_write]; omega)]
  rw [write_drop_dataOffset A]
  simp only [parse_sfat_write A hb]
  rw [if_neg (by
    simp only [List.length_append, length_sfntBytes]
    omega)]
  have hall : (((writtenTable A).take (writeCountField A)).map nodeOfRec).all
      (fun nd => decide (nd.file_start ≤ nd.file_end ∧ nd.file_end ≤ (dataSection A).length))
        = true := by
    rw [List.all_eq_true]
    intro nd hnd
    obtain ⟨r, hr, rfl⟩ := List.mem_map.mp hnd
    have hrt : r ∈ writtenTable A := List.take_subset _ _ hr
    have hok := writtenTable_ranges_ok A hdata r hrt
    simp only [nodeOfRec, decide_eq_true_eq]
    exact hok
  rw [if_pos hall]
  rw [List.map_map]
  rfl

theorem read_write_general (A : SarcFile)
    (hstr : (strSection A).length < 2 ^ 30)
    (htot : writeDataOffset A + (dataSection A).length < 2 ^ 32) :
    SarcFile.read (SarcFile.write A)
      = .ok ⟨A.byte_order, ((writtenTable A).take (writeCountField A)).map
          (fun r => assembleEntry
            (((((writtenTable A).drop (writeCountField A)).map
                (sfatRecBytes A.byte_order)).flatten
              ++ (sfntBytes A ++ (strSection A ++ (padBytes A ++ dataSection A)))).drop 8)
            (dataSection A) (nodeOfRec r))⟩ := by
  have hdpo : dataPaddingOffset A
      = 0x14 + 0xC + A.files.length * 0x10 + 8 + (strSection A).length := rfl
  have hle : dataPaddingOffset A ≤ writeDataOffset A := align2000_le _
  have htake : (SarcFile.write A).take 4 = [0x53, 0x41, 0x52, 0x43] := by
    unfold SarcFile.write headerBytes
    rw [show ([0x53, 0x41, 0x52, 0x43] ++ writeU16 A.byte_order 0x14 ++
          writeU16 A.byte_order 0xFEFF ++
          writeU32 A.byte_order ((writeDataOffset A + (dataSection A).length) % 2 ^ 32) ++
          writeU32 A.byte_order (writeDataOffset A % 2 ^ 32) ++
          writeU16 A.byte_order 0x0100 ++ [0, 0]) ++ sfatBytes A ++ sfntBytes A ++
          strSection A ++ padBytes A ++ dataSection A
        = [0x53, 0x41, 0x52, 0x43] ++ (writeU16 A.byte_order 0x14 ++
          (writeU16 A.byte_order 0xFEFF ++
          (writeU32 A.byte_order ((writeDataOffset A + (dataSection A).length) % 2 ^ 32) ++
          (writeU32 A.byte_order (writeDataOffset A % 2 ^ 32) ++
          (writeU16 A.byte_order 0x0100 ++ ([0, 0] ++ (sfatBytes A ++ (sfntBytes A ++
          (strSection A ++ (padBytes A ++ dataSection A))))))))))
      from by simp [List.append_assoc]]
    exact List.take_left' rfl
  unfold SarcFile.read
  rw [if_neg (by rw [length_write]; omega)]
  rw [htake]
  rw [if_neg (by decide), if_neg (by decide)]
  rw [parse_write_general A hstr htot]

theorem read_write_small (A : SarcFile) (hn : A.files.length < 2 ^ 16)
    (hstr : (strSection A).length < 2 ^ 30)
    (htot : writeDataOffset A + (dataSection A).length < 2 ^ 32) :
    SarcFile.read (SarcFile.write A)
      = .ok ⟨A.byte_order, (writtenTable A).map
          (fun r => assembleEntry (strSection A ++ (padBytes A ++ dataSection A))
            (dataSection A) (nodeOfRec r))⟩ := by
  have hcnt : writeCountField A = A.files.length := Nat.mod_eq_of_lt hn
  have htbl : (writtenTable A).length = A.files.length := length_writtenTable A
  rw [read_write_general A hstr htot, hcnt]
  rw [show (writtenTable A).drop A.files.length = [] from by
    rw [← htbl]; exact List.drop_length _]
  rw [show (writtenTable A).take A.files.length = writtenTable A from by
    rw [← htbl]; exact List.take_length _]
  simp only [List.map_nil, List.flatten_nil, List.nil_append]
  rw [List.drop_left' (length_sfntBytes A)]

theorem names_hashes_sublist (files : List SarcEntry) :
    ((files.filterMap (fun f => f.name)).map sfat_hash).Sublist (files.map hashOf) := by
  induction files with
  | nil => simp
  | cons f t ih =>
      cases hnm : f.name with
      | none =>
          simp only [List.filterMap_cons, hnm, List.map_cons]
          exact ih.cons _
      | some nm =>
          simp only [List.filterMap_cons, hnm, List.map_cons]
          have : hashOf f = sfat_hash nm := by simp [hashOf, hnm]
          rw [this]
          exact ih.cons₂ _

theorem pairs_keys_nodup (A : SarcFile) (hnd : (A.files.map hashOf).Nodup) :
    ((insSort (fun p => p.1) (A.files.map (fun f => (hashOf f, f.data)))).map Prod.fst).Nodup := by
  refine (List.Perm.nodup_iff ((insSort_perm _ _).map Prod.fst)).mpr ?_
  rw [List.map_map]
  exact hnd

theorem sorted_names_nodup (A : SarcFile) (hnd : (A.files.map hashOf).Nodup) :
    ((insSort sfat_hash (A.files.filterMap (fun f => f.name))).map sfat_hash).Nodup := by
  refine (List.Perm.nodup_iff ((insSort_perm _ _).map sfat_hash)).mpr ?_
  exact (names_hashes_sublist A.files).nodup hnd

theorem entry_data_recover (A : SarcFile) (hnd : (A.files.map hashOf).Nodup)
    (hdata : (dataSection A).length < 2 ^ 32) (f : SarcEntry) (hf : f ∈ A.files) :
    ∃ s, (List.lookup (hashOf f) (dataOffsets A)).getD (0, 0) = (s, s + f.data.length) ∧
      ((dataSection A).drop s).take f.data.length = f.data ∧
      s + f.data.length ≤ (dataSection A).length := by
  have hmem : (hashOf f, f.data)
      ∈ insSort (fun p => p.1) (A.files.map (fun f => (hashOf f, f.data))) :=
    (mem_insSort _ _ _).mpr (List.mem_map.mpr ⟨f, hf, rfl⟩)
  obtain ⟨preD, post, h1, h2, h3, -⟩ :=
    dataBuildAux_decomp (hashOf f) f.data _ (pairs_keys_nodup A hnd) hmem [] []
  have hds : dataSection A = preD ++ (f.data ++ post) := h1
  have hlen : preD.length + f.data.length ≤ (dataSection A).length := by
    rw [hds]
    simp only [List.length_append]
    omega
  have hsum : preD.length + f.data.length < 2 ^ 32 := by omega
  have hsmall : preD.length < 2 ^ 32 := by omega
  refine ⟨preD.length, ?_, ?_, hlen⟩
  · have hl : List.lookup (hashOf f) (dataOffsets A)
        = some (preD.length % 2 ^ 32, (preD.length + f.data.length) % 2 ^ 32) := h2
    rw [hl, Option.getD_some, Nat.mod_eq_of_lt hsmall, Nat.mod_eq_of_lt hsum]
  · rw [hds, List.drop_left]
    exact List.take_left _ _

theorem entry_name_recover (A : SarcFile) (hnd : (A.files.map hashOf).Nodup)
    (nm : List Nat) (hmemn : nm ∈ A.files.filterMap (fun f => f.name))
    (hval : ∀ c ∈ nm, ValidScalar c ∧ c ≠ 0) :
    ∃ off, List.lookup (sfat_hash nm) (strOffsets A) = some off ∧ 4 ∣ off ∧
      get_string (strSection A ++ (padBytes A ++ dataSection A)) off = some nm := by
  have hmem2 : nm ∈ insSort sfat_hash (A.files.filterMap (fun f => f.name)) :=
    (mem_insSort _ _ _).mpr hmemn
  obtain ⟨pre, post, h1, h2, h3⟩ := strBuildAux_decomp nm _ (sorted_names_nodup A hnd)
    hmem2 [] [] (by simp)
  have hss : strSection A = pre ++ (sarcStringBytes nm ++ post) := by
    have := h1
    simpa using this
  have hl : List.lookup (sfat_hash nm) (strOffsets A) = some pre.length := by
    have := h2
    simpa using this
  refine ⟨pre.length, hl, h3, ?_⟩
  rw [hss, List.append_assoc, List.append_assoc]
  exact get_string_at pre nm _ hval

theorem entry_recover (A : SarcFile) (hnd : (A.files.map hashOf).Nodup)
    (hnames : ∀ f ∈ A.files, ∀ nm, f.name = some nm → ∀ c ∈ nm, ValidScalar c ∧ c ≠ 0)
    (hstr18 : (strSection A).length ≤ 2 ^ 18)
    (hdata : (dataSection A).length < 2 ^ 32)
    (f : SarcEntry) (hf : f ∈ A.files) :
    assembleEntry (strSection A ++ (padBytes A ++ dataSection A)) (dataSection A)
      (nodeOfRec
        { name := f.name
          name_table_offset :=
            f.name.bind (fun nm => List.lookup (sfat_hash nm) (strOffsets A))
          file_range := (List.lookup (hashOf f) (dataOffsets A)).getD (0, 0) }) = f := by
  obtain ⟨s, hrange, hdat, -⟩ := entry_data_recover A hnd hdata f hf
  cases hnm : f.name with
  | none =>
      unfold assembleEntry nodeOfRec
      simp only [hnm, Option.none_bind, Option.map_none', Option.bind]
      rw [hrange]
      show SarcEntry.mk none (((dataSection A).drop s).take (s + f.data.length - s)) = f
      rw [show s + f.data.length - s = f.data.length from by omega, hdat, ← hnm]
  | some nm =>
      obtain ⟨off, hloff, hdvd, hgs⟩ := entry_name_recover A hnd nm
        (List.mem_filterMap.mpr ⟨f, hf, hnm⟩) (hnames f hf nm hnm)
      have hoffb : off + 4 ≤ (strSection A).length := strOffsets_bound A _ _ hloff
      have hofflt : off / 4 < 2 ^ 16 := by omega
      unfold assembleEntry nodeOfRec
      simp only [hnm, Option.some_bind, hloff, Option.map_some']
      rw [hrange]
      rw [lor_flag_mod _ hofflt]
      rw [Nat.div_mul_cancel hdvd]
      rw [hgs]
      show SarcEntry.mk (some nm) (((dataSection A).drop s).take (s + f.data.length - s)) = f
      rw [show s + f.data.length - s = f.data.length from by omega, hdat, ← hnm]

/-! ## Theorems: the round trip (claims C1, C4, C10) -/

/-- C1 amended: for archives whose entries have pairwise distinct table
hashes, whose names consist of valid nonzero unicode scalars, and whose
serialized sections fit the format field widths, reading back the written
bytes succeeds with the same byte order and a permutation of the entries. -/
theorem read_write_roundtrip (A : SarcFile)
    (hnd : (A.files.map hashOf).Nodup)
    (hnames : ∀ f ∈ A.files, ∀ nm, f.name = some nm → ∀ c ∈ nm, ValidScalar c ∧ c ≠ 0)
    (hn : A.files.length < 2 ^ 16)
    (hstr18 : (strSection A).length ≤ 2 ^ 18)
    (htot : writeDataOffset A + (dataSection A).length < 2 ^ 32) :
    ∃ fs, SarcFile.read (SarcFile.write A) = .ok ⟨A.byte_order, fs⟩ ∧ fs.Perm A.files := by
  have hstr : (strSection A).length < 2 ^ 30 := by omega
  have hdata : (dataSection A).length < 2 ^ 32 := by omega
  refine ⟨_, read_write_small A hn hstr htot, ?_⟩
  have hperm1 : (writtenTable A).Perm (sfatRecsUnsorted A) := insSort_perm _ _
  have hperm2 := hperm1.map (fun r =>
    assembleEntry (strSection A ++ (padBytes A ++ dataSection A)) (dataSection A)
      (nodeOfRec r))
  refine hperm2.trans ?_
  have hcong : A.files.map ((fun r =>
        assembleEntry (strSection A ++ (padBytes A ++ dataSection A)) (dataSection A)
          (nodeOfRec r)) ∘ (fun f =>
      ({ name := f.name
         name_table_offset :=
           f.name.bind (fun nm => List.lookup (sfat_hash nm) (strOffsets A))
         file_range := (List.lookup (hashOf f) (dataOffsets A)).getD (0, 0) } : SfatRec)))
      = A.files.map id :=
    List.map_congr_left (fun f hf => entry_recover A hnd hnames hstr18 hdata f hf)
  have h3 : (sfatRecsUnsorted A).map (fun r =>
        assembleEntry (strSection A ++ (padBytes A ++ dataSection A)) (dataSection A)
          (nodeOfRec r))
      = A.files := by rw [sfatRecsUnsorted, List.map_map, hcong, List.map_id]
  rw [h3]

/-- C1 counterexample: the round trip as claimed fails on the archive with
two unnamed entries holding different data — both read back as the second
entry's payload, so the multiset of entries is not preserved. -/
theorem roundtrip_fails_on_collision :
    SarcFile.read (SarcFile.write collArchive)
      = .ok ⟨.little, [⟨none, [1]⟩, ⟨none, [1]⟩]⟩ ∧
    ¬ ([⟨none, [1]⟩, ⟨none, [1]⟩] : List SarcEntry).Perm collArchive.files := by
  constructor
  · rw [read_write_small collArchive (by decide) (by decide) (by decide)]
    decide
  · intro hperm
    have := hperm.count_eq ⟨none, [1]⟩
    simp [collArchive, List.count_cons] at this

/-- Witness for the amended C1 at a concrete archive. -/
theorem read_write_roundtrip_witness :
    ((⟨.little, [⟨some [97], [5]⟩, ⟨none, []⟩]⟩ : SarcFile).files.map hashOf).Nodup ∧
    (∃ fs, SarcFile.read (SarcFile.write ⟨.little, [⟨some [97], [5]⟩, ⟨none, []⟩]⟩)
      = .ok ⟨Endian.little, fs⟩ ∧
      fs.Perm (⟨.little, [⟨some [97], [5]⟩, ⟨none, []⟩]⟩ : SarcFile).files) :=
  ⟨by decide,
   read_write_roundtrip ⟨.little, [⟨some [97], [5]⟩, ⟨none, []⟩]⟩
     (by decide)
     (by intro f hf nm hnm c hc
         fin_cases hf <;> simp_all
         subst hnm
         rw [List.mem_singleton] at hc
         subst hc
         exact ⟨by norm_num [ValidScalar], by norm_num⟩)
     (by decide) (by decide) (by decide)⟩

/-- C4 amended: the data_start and data_end fields of every written file
table record are offsets relative to the start of the data section: for an
archive with pairwise distinct entry hashes, the output bytes at positions
data_offset + data_start up to data_offset + data_end are exactly the
corresponding entry's payload. -/
theorem data_ranges_relative_to_data_offset (A : SarcFile)
    (hnd : (A.files.map hashOf).Nodup)
    (htot : writeDataOffset A + (dataSection A).length < 2 ^ 32) :
    ∀ r ∈ writtenTable A, ∃ f ∈ A.files, f.name = r.name ∧
      ((SarcFile.write A).drop (writeDataOffset A + r.file_range.1)).take
        (r.file_range.2 - r.file_range.1) = f.data := by
  intro r hr
  have hdata : (dataSection A).length < 2 ^ 32 := by omega
  obtain ⟨f, hf, hname, -, hfr⟩ := writtenTable_mem_shape A r hr
  obtain ⟨s, hrange, hdat, -⟩ := entry_data_recover A hnd hdata f hf
  refine ⟨f, hf, hname.symm, ?_⟩
  rw [hfr, hrange]
  have hdd : (SarcFile.write A).drop (writeDataOffset A + s)
      = ((SarcFile.write A).drop (writeDataOffset A)).drop s := by
    rw [List.drop_drop]
  rw [show ((s, s + f.data.length) : Nat × Nat).1 = s from rfl,
    show ((s, s + f.data.length) : Nat × Nat).2 = s + f.data.length from rfl,
    hdd, write_drop_dataOffset A,
    show s + f.data.length - s = f.data.length from by omega]
  exact hdat

/-- C4 counterexample: in the archive with one unnamed three byte entry the
record's range is (0, 3), and the bytes of the whole output at positions 0
to 3 are the SARC magic, not the payload — the range is not an absolute
file offset. -/
theorem data_range_not_absolute :
    (writtenTable ⟨.little, [⟨none, [1, 2, 3]⟩]⟩).map (fun r => r.file_range) = [(0, 3)] ∧
    ((SarcFile.write ⟨.little, [⟨none, [1, 2, 3]⟩]⟩).drop 0).take (3 - 0)
      = [0x53, 0x41, 0x52] ∧
    ([0x53, 0x41, 0x52] : List Nat) ≠ [1, 2, 3] := by
  refine ⟨by decide, by decide, by decide⟩

/-- Witness for the amended C4 at a concrete archive. -/
theorem data_ranges_relative_witness :
    ((⟨.little, [⟨none, [1, 2, 3]⟩]⟩ : SarcFile).files.map hashOf).Nodup ∧
    ∀ r ∈ writtenTable ⟨.little, [⟨none, [1, 2, 3]⟩]⟩,
      ∃ f ∈ (⟨.little, [⟨none, [1, 2, 3]⟩]⟩ : SarcFile).files, f.name = r.name ∧
      ((SarcFile.write ⟨.little, [⟨none, [1, 2, 3]⟩]⟩).drop
          (writeDataOffset ⟨.little, [⟨none, [1, 2, 3]⟩]⟩ + r.file_range.1)).take
        (r.file_range.2 - r.file_range.1) = f.data :=
  ⟨by decide,
   data_ranges_relative_to_data_offset ⟨.little, [⟨none, [1, 2, 3]⟩]⟩ (by decide) (by decide)⟩

/-- C10: the 16-bit count field holds the entry count modulo 2^16: it equals
the entry count exactly when there are fewer than 2^16 entries (and the
written table itself always lists every entry), and reading back the output
recovers exactly count-mod-2^16 entries. -/
theorem count_field_wraps (A : SarcFile)
    (hstr : (strSection A).length < 2 ^ 30)
    (htot : writeDataOffset A + (dataSection A).length < 2 ^ 32) :
    writeCountField A = A.files.length % 2 ^ 16 ∧
    (A.files.length < 2 ^ 16 → writeCountField A = A.files.length) ∧
    (writtenTable A).length = A.files.length ∧
    ∃ fs, SarcFile.read (SarcFile.write A) = .ok ⟨A.byte_order, fs⟩ ∧
      fs.length = A.files.length % 2 ^ 16 := by
  refine ⟨rfl, fun h => Nat.mod_eq_of_lt h, length_writtenTable A, ?_⟩
  refine ⟨_, read_write_general A hstr htot, ?_⟩
  rw [List.length_map, List.length_take]
  exact min_eq_left (writeCountField_le A)

/-- Witness for C10 at a concrete archive. -/
theorem count_field_wraps_witness :
    (strSection ⟨.big, [⟨none, [9]⟩]⟩).length < 2 ^ 30 ∧
    (writeCountField ⟨.big, [⟨none, [9]⟩]⟩
        = (⟨.big, [⟨none, [9]⟩]⟩ : SarcFile).files.length % 2 ^ 16 ∧
      ((⟨.big, [⟨none, [9]⟩]⟩ : SarcFile).files.length < 2 ^ 16 →
        writeCountField ⟨.big, [⟨none, [9]⟩]⟩
          = (⟨.big, [⟨none, [9]⟩]⟩ : SarcFile).files.length) ∧
      (writtenTable ⟨.big, [⟨none, [9]⟩]⟩).length
        = (⟨.big, [⟨none, [9]⟩]⟩ : SarcFile).files.length ∧
      ∃ fs, SarcFile.read (SarcFile.write ⟨.big, [⟨none, [9]⟩]⟩)
          = .ok ⟨Endian.big, fs⟩ ∧
        fs.length = (⟨.big, [⟨none, [9]⟩]⟩ : SarcFile).files.length % 2 ^ 16) :=
  ⟨by decide, count_field_wraps ⟨.big, [⟨none, [9]⟩]⟩ (by decide) (by decide)⟩

/-! ## Theorems: name decoding failures degrade to None (claim C9) -/

theorem parseHeader_ok_shape (data rest : List Nat) (v : Endian × Nat × Nat)
    (h : parseHeader data = .ok rest v) :
    4 ≤ data.length ∧ data.take 4 = [0x53, 0x41, 0x52, 0x43] := by
  unfold parseHeader at h
  split at h
  · refine ⟨by simp only [List.length_cons]; omega, rfl⟩
  · exact absurd h (by simp)

/-- C9: whenever the structural part of a parse succeeds — header, file
table records and bounds checks, which never consult the name table — the
read as a whole succeeds with one entry per record, and any record whose
name table lookup fails (missing terminator or invalid UTF-8) yields its
entry with name none while every other entry is still produced by the same
entry assembly; a name decoding failure is never a fatal error. -/
theorem name_decode_failure_not_fatal (data : List Nat) (E : Endian)
    (nodes : List SfatNode) (sd fd : List Nat)
    (h : structuralParse data = some (E, nodes, sd, fd)) :
    SarcFile.read data = .ok ⟨E, nodes.map (assembleEntry sd fd)⟩ ∧
    ∀ node ∈ nodes, ∀ off, node.name_offset = some off →
      get_string sd (off * 4) = none → (assembleEntry sd fd node).name = none := by
  refine ⟨?_, ?_⟩
  · unfold structuralParse at h
    split at h
    · exact Option.noConfusion h
    · exact Option.noConfusion h
    · rename_i heq
      split at h
      · exact Option.noConfusion h
      · rename_i hlt
        split at h
        · exact Option.noConfusion h
        · rename_i hsfat
          split at h
          · exact Option.noConfusion h
          · rename_i h8
            split at h
            · rename_i hall
              simp only [Option.some.injEq, Prod.mk.injEq] at h
              obtain ⟨rfl, rfl, rfl, rfl⟩ := h
              obtain ⟨hlen4, htake⟩ := parseHeader_ok_shape data _ _ heq
              have hc1 : ¬ data.length < 4 := by omega
              have hy : ¬ data.take 4 = yaz0Magic := by rw [htake]; decide
              have hz : ¬ data.take 4 = zstdMagic := by rw [htake]; decide
              unfold SarcFile.read
              rw [if_neg hc1, if_neg hy, if_neg hz]
              unfold SarcFile.parse
              rw [heq]
              simp only [hsfat, if_neg hlt, if_neg h8, if_pos hall]
            · exact Option.noConfusion h
  · intro node hn off hoff hgs
    simp [assembleEntry, hoff, hgs]

/-- Witness for C9: a little-endian archive buffer with two records, the
first naming invalid UTF-8 bytes (0xFF) and the second a valid name; read
succeeds, the first entry degrades to name none. -/
theorem name_decode_failure_not_fatal_witness :
    structuralParse
        [0x53, 0x41, 0x52, 0x43, 0x14, 0x00, 0xFF, 0xFE,
         0x53, 0, 0, 0, 0x50, 0, 0, 0, 0, 0, 0, 0,
         0x53, 0x46, 0x41, 0x54, 0x0C, 0, 2, 0, 0x65, 0, 0, 0,
         0, 0, 0, 0, 0, 0, 0, 1, 0, 0, 0, 0, 2, 0, 0, 0,
         0, 0, 0, 0, 1, 0, 0, 1, 2, 0, 0, 0, 3, 0, 0, 0,
         0x53, 0x46, 0x4E, 0x54, 8, 0, 0, 0,
         0xFF, 0, 0, 0, 0x61, 0, 0, 0,
         0xAB, 0xCD, 0xEE]
      = some (Endian.little, [⟨some 0, 0, 2⟩, ⟨some 1, 2, 3⟩],
          [0xFF, 0, 0, 0, 0x61, 0, 0, 0, 0xAB, 0xCD, 0xEE], [0xAB, 0xCD, 0xEE]) ∧
    (SarcFile.read
        [0x53, 0x41, 0x52, 0x43, 0x14, 0x00, 0xFF, 0xFE,
         0x53, 0, 0, 0, 0x50, 0, 0, 0, 0, 0, 0, 0,
         0x53, 0x46, 0x41, 0x54, 0x0C, 0, 2, 0, 0x65, 0, 0, 0,
         0, 0, 0, 0, 0, 0, 0, 1, 0, 0, 0, 0, 2, 0, 0, 0,
         0, 0, 0, 0, 1, 0, 0, 1, 2, 0, 0, 0, 3, 0, 0, 0,
         0x53, 0x46, 0x4E, 0x54, 8, 0, 0, 0,
         0xFF, 0, 0, 0, 0x61, 0, 0, 0,
         0xAB, 0xCD, 0xEE]
      = .ok ⟨Endian.little,
          ([⟨some 0, 0, 2⟩, ⟨some 1, 2, 3⟩] : List SfatNode).map
            (assembleEntry [0xFF, 0, 0, 0, 0x61, 0, 0, 0, 0xAB, 0xCD, 0xEE]
              [0xAB, 0xCD, 0xEE])⟩ ∧
     ∀ node ∈ ([⟨some 0, 0, 2⟩, ⟨some 1, 2, 3⟩] : List SfatNode), ∀ off,
       node.name_offset = some off →
       get_string [0xFF, 0, 0, 0, 0x61, 0, 0, 0, 0xAB, 0xCD, 0xEE] (off * 4) = none →
       (assembleEntry [0xFF, 0, 0, 0, 0x61, 0, 0, 0, 0xAB, 0xCD, 0xEE]
         [0xAB, 0xCD, 0xEE] node).name = none) :=
  ⟨by decide, name_decode_failure_not_fatal _ _ _ _ _ (by decide)⟩

/-! ## Theorems: the hash collision of the write path (claim C8) -/

/-- C8: in the written file table of collArchive both records carry the same
data range — that of the payload written last — although the two entries
hold different data (the first entry's own range, (0, 0), is lost). -/
theorem collision_shares_range :
    (writtenTable collArchive).map (fun r => r.file_range) = [(0, 1), (0, 1)] ∧
    collArchive.files.map (fun f => f.data) = [[], [1]] := by
  decide

end Sarc
